import Mathlib

/-!
Verification development for a generic undirected weighted graph library
with single-source shortest paths (Dijkstra), shallowly embedded from
`src/graph.rs` and `src/main.rs`.

Modelling conventions:
* `HashSet<V>` (the vertex set) is modelled as an insertion-ordered
  duplicate-free `List V`; `HashSet::insert` becomes insert-if-absent.
* `Vec<Edge>` is a `List (Edge V E)` in insertion order.
* `HashMap<&V, E>` (the provisional-distance map) is modelled as an
  association list `List (V × E)` with `HashMap::insert` replacing the
  value of an existing key in place.
* A Rust panic (the `unwrap()` calls in `dijkstra_paths`) is modelled by
  the `Option` monad: `none` means the computation panicked, `some m`
  means it returned the map `m` normally.
* The `while` loop of `dijkstra_paths` is run on fuel equal to the
  length of the unvisited list; each iteration removes exactly one
  member of that list, so the fuel never runs out on the loop's own
  executions (the `0, _ :: _` equation is unreachable from
  `Graph.dijkstra_paths`).
-/

set_option linter.unusedSectionVars false

namespace DijkstraGraphs

/-- Embeds `struct Edge` (graph.rs lines 31-36): two endpoint vertices and
an edge value.  The Rust `&'a V` references are modelled by the vertex
values themselves. -/
structure Edge (V E : Type) where
  v1 : V
  v2 : V
  value : E
  deriving DecidableEq

/-- Embeds `struct Graph` (graph.rs lines 38-42): a vertex set and an
insertion-ordered edge sequence. -/
structure Graph (V E : Type) where
  vertices : List V
  edges : List (Edge V E)
  deriving DecidableEq

variable {V E : Type} [DecidableEq V]

/-- Embeds `Graph::empty` (graph.rs lines 61-66). -/
def Graph.empty : Graph V E := ⟨[], []⟩

/-- Embeds `Graph::add_vertex` (graph.rs lines 68-70): `HashSet::insert`,
a no-op on a vertex that is already present. -/
def Graph.add_vertex (g : Graph V E) (v : V) : Graph V E :=
  if v ∈ g.vertices then g else { g with vertices := g.vertices ++ [v] }

/-- Embeds `Graph::contains` (graph.rs lines 72-74). -/
def Graph.contains (g : Graph V E) (v : V) : Bool :=
  decide (v ∈ g.vertices)

/-- The error string of `connect_vertices` (graph.rs line 83); the spec
calls this condition the `UnknownVertex` error. -/
def unknownVertexMsg : String := "Graph does not contain both vertices."

/-- Embeds `Graph::connect_vertices` (graph.rs lines 76-89).  The Rust
method mutates `self` and returns `Result<(), &str>`; here it returns the
result together with the post-call graph. -/
def Graph.connect_vertices (g : Graph V E) (v1 v2 : V) (value : E) :
    Except String Unit × Graph V E :=
  if !(g.contains v1 && g.contains v2) then
    (Except.error unknownVertexMsg, g)
  else
    (Except.ok (), { g with edges := g.edges ++ [Edge.mk v1 v2 value] })

/-- The loop body of `Graph::neighbors` (graph.rs lines 91-109), recursing
over the edge list: for each edge having `v` as an endpoint, push the
other endpoint together with the edge value (`edge.v1` is checked first,
as in the source). -/
def neighborsGo (v : V) : List (Edge V E) → List (V × E)
  | [] => []
  | e :: rest =>
    if v = e.v1 then (e.v2, e.value) :: neighborsGo v rest
    else if v = e.v2 then (e.v1, e.value) :: neighborsGo v rest
    else neighborsGo v rest

/-- Embeds `Graph::neighbors` (graph.rs lines 91-109). -/
def Graph.neighbors (g : Graph V E) (v : V) : List (V × E) :=
  neighborsGo v g.edges

/-- The loop of `Graph::value_between` (graph.rs lines 111-122): return
the value of the first edge linking `v1` and `v2` in either orientation. -/
def findValue (v1 v2 : V) : List (Edge V E) → Option E
  | [] => none
  | e :: rest =>
    if (e.v1 = v1 ∧ e.v2 = v2) ∨ (e.v1 = v2 ∧ e.v2 = v1) then some e.value
    else findValue v1 v2 rest

/-- Embeds `Graph::value_between` (graph.rs lines 111-122). -/
def Graph.value_between (g : Graph V E) (v1 v2 : V) : Option E :=
  findValue v1 v2 g.edges

/-- Association-list lookup, modelling `HashMap::get` /
`HashMap::contains_key` on the distance map. -/
def alookup {α β : Type} [DecidableEq α] : List (α × β) → α → Option β
  | [], _ => none
  | (k, v) :: rest, key => if k = key then some v else alookup rest key

/-- Association-list insert, modelling `HashMap::insert`: replace the
value of an existing key, otherwise append a fresh binding. -/
def upsert {α β : Type} [DecidableEq α] : List (α × β) → α → β → List (α × β)
  | [], key, v => [(key, v)]
  | (k, w) :: rest, key, v =>
    if k = key then (key, v) :: rest else (k, w) :: upsert rest key v

/-- Association-list removal, modelling `HashMap::remove` (on maps with
unique keys, as built by `upsert`). -/
def aerase {α β : Type} [DecidableEq α] (m : List (α × β)) (key : α) : List (α × β) :=
  m.filter (fun p => decide (p.fst ≠ key))

/-- Strict comparison of `Option` keys mirroring Rust's `Ord` instance on
`Option` (`None` is least), as used by `min_by_key` on
`distances.get(v)` (graph.rs line 163). -/
def optLt {β : Type} [LinearOrder β] : Option β → Option β → Bool
  | none, none => false
  | none, some _ => true
  | some _, none => false
  | some a, some b => decide (a < b)

/-- The accumulator pass of `Iterator::min_by_key`: keep the current
minimum, replacing it only when a later element's key is strictly
smaller, so the first minimal element wins ties. -/
def minFrom {β : Type} [LinearOrder β] (key : V → Option β) (best : V) :
    List V → V
  | [] => best
  | x :: xs =>
    if optLt (key x) (key best) then minFrom key x xs else minFrom key best xs

/-- `Iterator::min_by_key` (graph.rs lines 160-164): `none` on an empty
iterator, otherwise the first element with minimal key. -/
def argmin {β : Type} [LinearOrder β] (key : V → Option β) :
    List V → Option V
  | [] => none
  | x :: xs => some (minFrom key x xs)

variable [LinearOrder E] [Add E]

/-- One relaxation (the body of the `for` loop at graph.rs lines 173-183):
for the neighbor pair `p = (vertex, edge_len)`, insert
`alt = nearest_dist + edge_len` when the vertex has no provisional
distance yet or `alt` is strictly smaller than it. -/
def relaxStep (d : E) (m : List (V × E)) (p : V × E) : List (V × E) :=
  match alookup m p.fst with
  | none => upsert m p.fst (d + p.snd)
  | some prev => if d + p.snd < prev then upsert m p.fst (d + p.snd) else m

/-- The full relaxation loop over the neighbor list of the newly settled
vertex (graph.rs lines 173-183). -/
def relax (d : E) (ns : List (V × E)) (m : List (V × E)) : List (V × E) :=
  ns.foldl (relaxStep d) m

/-- The `while` loop of `dijkstra_paths` (graph.rs lines 157-184), on
fuel.  `none` models the panic of the `unwrap()` at line 164 (no
unvisited vertex has a provisional distance while the unvisited set is
non-empty); the second `unwrap()` at line 171 is modelled the same way
(it can never fire, since the selected vertex passed the filter). -/
def dijkstra_loop (g : Graph V E) : Nat → List V → List (V × E) → Option (List (V × E))
  | _, [], m => some m
  | 0, _ :: _, _ => none
  | Nat.succ fuel, unvisited, m =>
    let candidates := unvisited.filter (fun v => (alookup m v).isSome)
    match argmin (fun v => alookup m v) candidates with
    | none => none
    | some nearest =>
      match alookup m nearest with
      | none => none
      | some d =>
        dijkstra_loop g fuel (unvisited.erase nearest) (relax d (g.neighbors nearest) m)

/-- The first loop of `dijkstra_paths` (graph.rs lines 141-155): collect
every vertex other than the source into the unvisited list and seed the
distance map, via `value_between`, for vertices directly connected to
the source. -/
def dijkstra_init (g : Graph V E) (source : V) : List V × List (V × E) :=
  g.vertices.foldl
    (fun acc vertex =>
      if vertex = source then acc
      else
        (acc.fst ++ [vertex],
         match g.value_between source vertex with
         | some d => upsert acc.snd vertex d
         | none => acc.snd))
    ([], [])

/-- Embeds `Graph::dijkstra_paths` (graph.rs lines 130-195).  `none`
models a panic; `some m` is the returned distance map, with any entry
for the source removed at the end (graph.rs lines 190-192). -/
def Graph.dijkstra_paths (g : Graph V E) (source : V) : Option (List (V × E)) :=
  let init := dijkstra_init g source
  Option.map (fun m => aerase m source)
    (dijkstra_loop g init.fst.length init.fst init.snd)

/-- An edge touches the vertex `v`: `v` is one of its two endpoints
(`edge.v1` checked first, as in `neighbors`). -/
def touches (v : V) (e : Edge V E) : Bool :=
  decide (v = e.v1) || decide (v = e.v2)

/-- The (other endpoint, edge value) pair contributed to `neighbors v`
by an edge touching `v`. -/
def other_end (v : V) (e : Edge V E) : V × E :=
  if v = e.v1 then (e.v2, e.value) else (e.v1, e.value)

/-- An edge links `v1` and `v2` when its unordered endpoint pair is
exactly that pair, in either orientation (the `forward_link` /
`backward_link` test of `value_between`). -/
abbrev pair_matches (v1 v2 : V) (e : Edge V E) : Prop :=
  (e.v1 = v1 ∧ e.v2 = v2) ∨ (e.v1 = v2 ∧ e.v2 = v1)

/-- Some stored edge joins `u` and `v` (in either orientation) with
value `w`. -/
def edge_between (g : Graph V E) (u v : V) (w : E) : Prop :=
  ∃ e, e ∈ g.edges ∧ ((e.v1 = u ∧ e.v2 = v) ∨ (e.v1 = v ∧ e.v2 = u)) ∧ e.value = w

/-- `path_cost g u v c` holds when `c` is the total weight of some
path of stored edges from `u` to `v` (the weight type has no zero, so
paths have at least one edge). -/
inductive path_cost [Add E] (g : Graph V E) : V → V → E → Prop where
  | single {u v : V} {w : E} : edge_between g u v w → path_cost g u v w
  | cons {u v x : V} {w c : E} :
      edge_between g u v w → path_cost g v x c → path_cost g u x (w + c)

/-- Graph states reachable from `Graph::empty` by any sequence of the
two mutating operations (`add_vertex`, `connect_vertices`; a failed
`connect_vertices` leaves the graph unchanged, so it is covered too). -/
inductive Reachable : Graph V E → Prop where
  | empty : Reachable Graph.empty
  | add_vertex (g : Graph V E) (v : V) : Reachable g → Reachable (g.add_vertex v)
  | connect (g : Graph V E) (v1 v2 : V) (w : E) :
      Reachable g → Reachable (g.connect_vertices v1 v2 w).snd

/-! Concrete graphs.  `exG` is the demonstration graph of `main.rs`
lines 7-14, built exactly as the `graph!` macro expands it: all six
vertices are added first, then the nine connections are made in the
listed order. -/

def vA : String := "A"
def vB : String := "B"
def vC : String := "C"
def vD : String := "D"
def vE : String := "E"
def vF : String := "F"
def vZ : String := "Z"

/-- The six vertices of the `main.rs` example, registered in order. -/
def exVerts : Graph String Nat :=
  (((((Graph.empty.add_vertex vA).add_vertex vB).add_vertex vC).add_vertex
    vD).add_vertex vE).add_vertex vF

/-- The full `main.rs` example graph. -/
def exG : Graph String Nat :=
  ((((((((exVerts.connect_vertices vA vB 6).snd.connect_vertices vA vC
    5).snd.connect_vertices vB vC 3).snd.connect_vertices vB vD
    4).snd.connect_vertices vC vD 3).snd.connect_vertices vC vE
    7).snd.connect_vertices vC vF 10).snd.connect_vertices vD vE
    5).snd.connect_vertices vE vF 4 |>.snd

/-- The distance map `dijkstra_paths` computes on the example graph. -/
def exResult : List (String × Nat) :=
  [(vB, 6), (vC, 5), (vD, 8), (vE, 12), (vF, 15)]

/-- Two registered vertices and no edges: `vB` is unreachable from
`vA`. -/
def g_unreachable : Graph String Nat :=
  (Graph.empty.add_vertex vA).add_vertex vB

/-- Vertices `A`, `B`, `C` with the single edge `A-B = 1`, leaving `C`
isolated. -/
def g_isolated : Graph String Nat :=
  (((Graph.empty.add_vertex vA).add_vertex vB).add_vertex
    vC).connect_vertices vA vB 1 |>.snd

/-- Vertices `A`, `B` with two parallel edges `A-B = 5` (inserted
first) and `A-B = 2`. -/
def gPar : Graph String Nat :=
  (((Graph.empty.add_vertex vA).add_vertex vB).connect_vertices vA vB
    5).snd.connect_vertices vA vB 2 |>.snd

/-- Vertices `A` and `B`, not yet connected. -/
def gAB : Graph String Nat :=
  (Graph.empty.add_vertex vA).add_vertex vB

/-- `gAB` with one edge `A-B = 1`. -/
def g_first_edge : Graph String Nat :=
  (gAB.connect_vertices vA vB 1).snd

/-! Helper lemmas. -/

theorem alookup_upsert_self {α β : Type} [DecidableEq α]
    (m : List (α × β)) (k : α) (x : β) :
    alookup (upsert m k x) k = some x := by
  induction m with
  | nil => simp [upsert, alookup]
  | cons p rest ih =>
    obtain ⟨k', w⟩ := p
    by_cases h : k' = k
    · simp [upsert, h, alookup]
    · simp [upsert, h, alookup, ih]

theorem alookup_upsert_ne {α β : Type} [DecidableEq α]
    (m : List (α × β)) (k key : α) (x : β) (h : k ≠ key) :
    alookup (upsert m k x) key = alookup m key := by
  induction m with
  | nil => simp [upsert, alookup, h]
  | cons p rest ih =>
    obtain ⟨k', w⟩ := p
    by_cases hk : k' = k
    · subst hk
      simp [upsert, alookup, h]
    · by_cases hk2 : k' = key
      · subst hk2
        simp [upsert, alookup, hk, Ne.symm h]
      · simp [upsert, alookup, hk, hk2, ih]

theorem relaxStep_lookup_le (d : E) (m : List (V × E)) (p : V × E) (v : V) (y : E)
    (h : alookup m v = some y) :
    ∃ z, alookup (relaxStep d m p) v = some z ∧ z ≤ y := by
  by_cases hp : p.fst = v
  · subst hp
    unfold relaxStep
    split
    · rename_i heq
      rw [heq] at h
      exact absurd h (by simp)
    · rename_i prev heq
      rw [heq] at h
      have hy : prev = y := Option.some_inj.mp h
      subst hy
      split
      · rename_i hlt
        exact ⟨d + p.snd, alookup_upsert_self m p.fst (d + p.snd), le_of_lt hlt⟩
      · exact ⟨prev, heq, le_refl prev⟩
  · unfold relaxStep
    split
    · exact ⟨y, by rw [alookup_upsert_ne _ _ _ _ hp]; exact h, le_refl y⟩
    · split
      · exact ⟨y, by rw [alookup_upsert_ne _ _ _ _ hp]; exact h, le_refl y⟩
      · exact ⟨y, h, le_refl y⟩

theorem relaxStep_lookup_fst (d : E) (m : List (V × E)) (p : V × E) :
    ∃ x, alookup (relaxStep d m p) p.fst = some x ∧ x ≤ d + p.snd := by
  unfold relaxStep
  split
  · exact ⟨d + p.snd, alookup_upsert_self m p.fst (d + p.snd), le_refl _⟩
  · rename_i prev heq
    split
    · exact ⟨d + p.snd, alookup_upsert_self m p.fst (d + p.snd), le_refl _⟩
    · rename_i hnlt
      exact ⟨prev, heq, le_of_not_lt hnlt⟩

theorem relax_cons (d : E) (p : V × E) (ns : List (V × E)) (m : List (V × E)) :
    relax d (p :: ns) m = relax d ns (relaxStep d m p) := rfl

theorem relax_mono (d : E) (ns : List (V × E)) :
    ∀ (m : List (V × E)) (v : V) (y : E), alookup m v = some y →
      ∃ z, alookup (relax d ns m) v = some z ∧ z ≤ y := by
  induction ns with
  | nil => exact fun m v y h => ⟨y, h, le_refl y⟩
  | cons p rest ih =>
    intro m v y h
    obtain ⟨z, hz, hzy⟩ := relaxStep_lookup_le d m p v y h
    obtain ⟨z2, hz2, hz2z⟩ := ih (relaxStep d m p) v z hz
    exact ⟨z2, by rw [relax_cons]; exact hz2, le_trans hz2z hzy⟩

theorem relax_lookup_of_mem (d : E) (ns : List (V × E)) :
    ∀ (m : List (V × E)) (v : V) (w : E), (v, w) ∈ ns →
      ∃ x, alookup (relax d ns m) v = some x ∧ x ≤ d + w := by
  induction ns with
  | nil => intro m v w h; simp at h
  | cons p rest ih =>
    intro m v w h
    rcases List.mem_cons.mp h with heq | hmem
    · obtain rfl := heq.symm
      rw [relax_cons]
      obtain ⟨x, hx, hxle⟩ := relaxStep_lookup_fst d m (v, w)
      obtain ⟨z, hz, hzx⟩ := relax_mono d rest (relaxStep d m (v, w)) v x hx
      exact ⟨z, hz, le_trans hzx hxle⟩
    · rw [relax_cons]
      exact ih (relaxStep d m p) v w hmem

theorem neighborsGo_eq_filter_map (v : V) (l : List (Edge V E)) :
    neighborsGo v l = (l.filter (touches v)).map (other_end v) := by
  induction l with
  | nil => rfl
  | cons e rest ih =>
    by_cases h1 : v = e.v1
    · have ht : touches v e = true := by simp [touches, h1]
      simp only [neighborsGo, List.filter_cons_of_pos ht, List.map_cons, other_end]
      rw [if_pos h1, if_pos h1, ih]
    · by_cases h2 : v = e.v2
      · have ht : touches v e = true := by simp [touches, h2]
        simp only [neighborsGo, List.filter_cons_of_pos ht, List.map_cons, other_end]
        rw [if_neg h1, if_pos h2, if_neg h1, ih]
      · have ht : ¬ touches v e = true := by simp [touches, h1, h2]
        simp only [neighborsGo, List.filter_cons_of_neg ht]
        rw [if_neg h1, if_neg h2, ih]

theorem mem_neighbors_of_edge_between (g : Graph V E) (u v : V) (w : E)
    (h : edge_between g u v w) : (v, w) ∈ g.neighbors u := by
  obtain ⟨e, hmem, hor, hval⟩ := h
  have ht : touches u e = true := by
    rcases hor with ⟨h1, _⟩ | ⟨_, h2⟩
    · simp [touches, h1]
    · simp [touches, h2]
  have hoe : other_end u e = (v, w) := by
    rcases hor with ⟨h1, h2⟩ | ⟨h1, h2⟩
    · simp only [other_end]
      rw [if_pos h1.symm, h2, hval]
    · by_cases hu : u = e.v1
      · have huv : u = v := hu.trans h1
        simp only [other_end]
        rw [if_pos hu, h2, hval, huv]
      · simp only [other_end]
        rw [if_neg hu, h1, hval]
  rw [Graph.neighbors, neighborsGo_eq_filter_map]
  exact List.mem_map.mpr ⟨e, List.mem_filter.mpr ⟨hmem, ht⟩, hoe⟩

theorem findValue_eq_find? (v1 v2 : V) (l : List (Edge V E)) :
    findValue v1 v2 l =
      Option.map Edge.value (l.find? (fun e => decide (pair_matches v1 v2 e))) := by
  induction l with
  | nil => rfl
  | cons e rest ih =>
    by_cases h : pair_matches v1 v2 e
    · simp only [findValue, List.find?_cons]
      rw [if_pos h]
      simp [h]
    · simp only [findValue, List.find?_cons]
      rw [if_neg h]
      simp [h, ih]

theorem findValue_eq_none_iff (v1 v2 : V) (l : List (Edge V E)) :
    findValue v1 v2 l = none ↔ ∀ e ∈ l, ¬ pair_matches v1 v2 e := by
  rw [findValue_eq_find?]
  simp [List.find?_eq_none]

theorem findValue_append (v1 v2 : V) (l1 l2 : List (Edge V E)) :
    findValue v1 v2 (l1 ++ l2) =
      (match findValue v1 v2 l1 with
       | some x => some x
       | none => findValue v1 v2 l2) := by
  induction l1 with
  | nil => simp [findValue]
  | cons e rest ih =>
    by_cases h : (e.v1 = v1 ∧ e.v2 = v2) ∨ (e.v1 = v2 ∧ e.v2 = v1)
    · simp only [List.cons_append, findValue]
      rw [if_pos h, if_pos h]
    · simp only [List.cons_append, findValue]
      rw [if_neg h, if_neg h]
      exact ih

theorem findValue_swap (v1 v2 : V) (l : List (Edge V E)) :
    findValue v1 v2 l = findValue v2 v1 l := by
  induction l with
  | nil => rfl
  | cons e rest ih =>
    by_cases h : (e.v1 = v1 ∧ e.v2 = v2) ∨ (e.v1 = v2 ∧ e.v2 = v1)
    · have h2 : (e.v1 = v2 ∧ e.v2 = v1) ∨ (e.v1 = v1 ∧ e.v2 = v2) := Or.symm h
      simp only [findValue]
      rw [if_pos h, if_pos h2]
    · have h2 : ¬ ((e.v1 = v2 ∧ e.v2 = v1) ∨ (e.v1 = v1 ∧ e.v2 = v2)) :=
        fun hx => h (Or.symm hx)
      simp only [findValue]
      rw [if_neg h, if_neg h2, ih]

theorem alookup_aerase_fst {α β : Type} [DecidableEq α]
    (m : List (α × β)) (key : α) :
    ∀ p ∈ aerase m key, p.fst ≠ key := by
  intro p hp
  have := List.mem_filter.mp hp
  simpa using this.2

/-! Claim theorems. -/

/-- C1: `dijkstra_paths` does NOT always terminate normally.  On the
graph with registered vertices `A`, `B` and no edges (source `A`, a
member of the vertex set, with `B` unreachable), the very first loop
iteration finds no unvisited vertex holding a provisional distance and
the `unwrap()` on `min_by_key` (graph.rs line 164) panics — modelled
here by the run evaluating to `none` instead of a distance map. -/
theorem dijkstra_panics_without_reachable_unvisited :
    g_unreachable.dijkstra_paths vA = none := by rfl

/-- C5: the main loop does NOT terminate when no unvisited vertex holds
a provisional distance; it keeps looping while the unvisited set is
non-empty and panics at the `unwrap()` (graph.rs line 164).  On the
graph `A`, `B`, `C` with the single edge `A-B = 1` and source `A`, the
isolated vertex `C` is never excluded from a result: no result is
produced at all (the run evaluates to `none`, the model of the
panic). -/
theorem dijkstra_panics_on_isolated_vertex :
    g_isolated.dijkstra_paths vA = none := by rfl

/-- C2 (counterexample): on the example graph of `main.rs`, the entry
for `F` in the returned mapping is `15` (path A-C-F = 5+10), not `16`
as the claim states. -/
theorem dijkstra_example_f_is_fifteen_not_sixteen :
    Option.map (fun m => alookup m vF) (exG.dijkstra_paths vA) = some (some 15) ∧
    some (some (15 : Nat)) ≠ some (some (16 : Nat)) :=
  ⟨by rfl, by decide⟩

/-- C2 (amended): on the fixed example graph with vertices A,B,C,D,E,F
and edges A-B=6, A-C=5, B-C=3, B-D=4, C-D=3, C-E=7, C-F=10, D-E=5,
E-F=4, `dijkstra_paths` with source `A` returns exactly the mapping
B=6, C=5, D=8, E=12, F=15. -/
theorem dijkstra_example_distances :
    exG.dijkstra_paths vA = some exResult := by rfl

/-- C3 (counterexample): with parallel edges `A-B = 5` (inserted first)
and `A-B = 2`, `dijkstra_paths` from `A` returns distance `5` for `B`,
yet a path (the second parallel edge) of total weight `2 < 5` exists,
so the returned distance is not the minimum total weight over all
paths. -/
theorem dijkstra_misses_cheaper_parallel_source_edge :
    gPar.dijkstra_paths vA = some [(vB, 5)] ∧
    path_cost gPar vA vB 2 ∧ (2 : Nat) < 5 :=
  ⟨by rfl,
   path_cost.single ⟨Edge.mk vA vB 2, by decide, Or.inl ⟨rfl, rfl⟩, rfl⟩,
   by decide⟩

/-- C3 (amended): relaxation iterates `neighbors`, which exposes every
parallel edge, so after relaxing from a settled vertex `u` with
distance `d`, every vertex `v` joined to `u` by a stored edge of weight
`w` — any one of several parallel edges — holds a provisional distance
of at most `d + w`.  (Parallel edges incident to the source are still
only seeded through `value_between`, first-inserted only, so the final
distance need not be the minimum over all paths; see the
counterexample.) -/
theorem relax_sees_all_parallel_edges (g : Graph V E) (u v : V) (w d : E)
    (m : List (V × E)) (h : edge_between g u v w) :
    ∃ x, alookup (relax d (g.neighbors u) m) v = some x ∧ x ≤ d + w :=
  relax_lookup_of_mem d (g.neighbors u) m v w
    (mem_neighbors_of_edge_between g u v w h)

/-- C3 (witness): the amended theorem applied to the parallel-edge
graph `gPar`, the settled vertex `A` with distance `7`, the edge
`A-B = 2` and the empty distance map. -/
theorem relax_sees_all_parallel_edges_witness :
    ∃ x, alookup (relax 7 (gPar.neighbors vA) ([] : List (String × Nat))) vB
      = some x ∧ x ≤ 7 + 2 :=
  relax_sees_all_parallel_edges gPar vA vB 2 7 []
    ⟨Edge.mk vA vB 2, by decide, Or.inl ⟨rfl, rfl⟩, rfl⟩

/-- C4: `connect_vertices(v1, v2, w)` fails with the `UnknownVertex`
error (the only error string) iff at least one endpoint is absent from
the vertex set; on failure the graph is unchanged, and on success
exactly the one edge `(v1, v2, w)` is appended to the edge sequence
while the vertex set is untouched. -/
theorem connect_vertices_spec (g : Graph V E) (v1 v2 : V) (w : E) :
    (((g.connect_vertices v1 v2 w).fst = Except.error unknownVertexMsg) ↔
      ¬ (v1 ∈ g.vertices ∧ v2 ∈ g.vertices))
    ∧ (¬ (v1 ∈ g.vertices ∧ v2 ∈ g.vertices) → (g.connect_vertices v1 v2 w).snd = g)
    ∧ ((v1 ∈ g.vertices ∧ v2 ∈ g.vertices) →
        (g.connect_vertices v1 v2 w).snd.vertices = g.vertices ∧
        (g.connect_vertices v1 v2 w).snd.edges = g.edges ++ [Edge.mk v1 v2 w]) := by
  by_cases h : v1 ∈ g.vertices ∧ v2 ∈ g.vertices
  · have hb : (g.contains v1 && g.contains v2) = true := by
      simp [Graph.contains, h.1, h.2]
    refine ⟨?_, fun hn => absurd h hn, fun _ => ?_⟩
    · simp [Graph.connect_vertices, hb, h]
    · simp [Graph.connect_vertices, hb]
  · have hb : (g.contains v1 && g.contains v2) = false := by
      rcases not_and_or.mp h with h1 | h2
      · simp [Graph.contains, h1]
      · simp [Graph.contains, h2]
    refine ⟨?_, fun _ => ?_, fun hc => absurd hc h⟩
    · simp [Graph.connect_vertices, hb, h]
    · simp [Graph.connect_vertices, hb]

/-- C4 (witness): connecting `A` and `B` in the two-vertex graph `gAB`
succeeds and appends exactly the edge `(A, B, 1)`. -/
theorem connect_vertices_spec_witness :
    (vA ∈ gAB.vertices ∧ vB ∈ gAB.vertices) ∧
    ((gAB.connect_vertices vA vB 1).snd.vertices = gAB.vertices ∧
     (gAB.connect_vertices vA vB 1).snd.edges = gAB.edges ++ [Edge.mk vA vB 1]) :=
  ⟨by decide, (connect_vertices_spec gAB vA vB 1).2.2 (by decide)⟩

/-- C6 (counterexample): with an earlier parallel edge `A-B = 1`
already stored, a successful `connect_vertices(A, B, 2)` does not make
`value_between(A, B)` return `2`: the first-inserted edge value `1` is
returned instead. -/
theorem value_between_sees_first_parallel_edge :
    (g_first_edge.connect_vertices vA vB 2).fst = Except.ok () ∧
    (g_first_edge.connect_vertices vA vB 2).snd.value_between vA vB = some 1 ∧
    (1 : Nat) ≠ 2 :=
  ⟨by rfl, by rfl, by decide⟩

/-- C6 (amended): immediately after a successful
`connect_vertices(A, B, w)` on a graph with no pre-existing edge
between `A` and `B` (in either orientation), `value_between(A, B)` and
`value_between(B, A)` both return `w`. -/
theorem value_between_after_first_connect (g : Graph V E) (a b : V) (w : E)
    (h1 : g.value_between a b = none)
    (h2 : (g.connect_vertices a b w).fst = Except.ok ()) :
    (g.connect_vertices a b w).snd.value_between a b = some w ∧
    (g.connect_vertices a b w).snd.value_between b a = some w := by
  by_cases hb : (g.contains a && g.contains b) = true
  · have hsnd : (g.connect_vertices a b w).snd
        = { g with edges := g.edges ++ [Edge.mk a b w] } := by
      simp [Graph.connect_vertices, hb]
    rw [hsnd]
    have h1' : findValue a b g.edges = none := h1
    have h1s : findValue b a g.edges = none := by
      rw [findValue_swap]
      exact h1'
    constructor
    · show findValue a b (g.edges ++ [Edge.mk a b w]) = some w
      rw [findValue_append, h1']
      simp [findValue]
    · show findValue b a (g.edges ++ [Edge.mk a b w]) = some w
      rw [findValue_append, h1s]
      simp [findValue]
  · exfalso
    have hb' : (g.contains a && g.contains b) = false := by
      revert hb
      cases (g.contains a && g.contains b) <;> simp
    simp [Graph.connect_vertices, hb'] at h2

/-- C6 (witness): the amended theorem applied to the edge-free graph
`gAB`, connecting `A` and `B` with weight `1`. -/
theorem value_between_after_first_connect_witness :
    gAB.value_between vA vB = none ∧
    (gAB.connect_vertices vA vB 1).fst = Except.ok () ∧
    ((gAB.connect_vertices vA vB 1).snd.value_between vA vB = some 1 ∧
     (gAB.connect_vertices vA vB 1).snd.value_between vB vA = some 1) :=
  ⟨by rfl, by rfl, value_between_after_first_connect gAB vA vB 1 (by rfl) (by rfl)⟩

/-- C7: whenever `dijkstra_paths` returns a mapping, that mapping has
no entry whose key is the source vertex (the entry is erased before
returning, graph.rs lines 190-192). -/
theorem dijkstra_excludes_source (g : Graph V E) (source : V) (m : List (V × E))
    (h : g.dijkstra_paths source = some m) :
    ∀ p ∈ m, p.fst ≠ source := by
  have h' : Option.map (fun m0 => aerase m0 source)
      (dijkstra_loop g (dijkstra_init g source).fst.length
        (dijkstra_init g source).fst (dijkstra_init g source).snd) = some m := h
  rcases Option.map_eq_some'.mp h' with ⟨m0, _, rfl⟩
  exact alookup_aerase_fst m0 source

/-- C7 (witness): on the example graph the returned mapping exists and
contains no key equal to the source `A`. -/
theorem dijkstra_excludes_source_witness :
    exG.dijkstra_paths vA = some exResult ∧ ∀ p ∈ exResult, p.fst ≠ vA :=
  ⟨by rfl, dijkstra_excludes_source exG vA exResult (by rfl)⟩

/-- C8: for every value `v` (registered vertex or not), `neighbors v`
returns exactly one (other-endpoint, weight) pair per stored edge
having `v` as either endpoint, in edge-insertion order — so its length
counts parallel edges individually — and is empty when no stored edge
touches `v`. -/
theorem neighbors_lists_every_touching_edge (g : Graph V E) (v : V) :
    g.neighbors v = (g.edges.filter (touches v)).map (other_end v)
    ∧ (g.neighbors v).length = g.edges.countP (touches v)
    ∧ ((∀ e ∈ g.edges, touches v e = false) → g.neighbors v = []) := by
  have key : g.neighbors v = (g.edges.filter (touches v)).map (other_end v) :=
    neighborsGo_eq_filter_map v g.edges
  refine ⟨key, ?_, ?_⟩
  · rw [key, List.length_map, List.countP_eq_length_filter]
  · intro hnone
    rw [key]
    have hf : g.edges.filter (touches v) = [] := by
      rw [List.filter_eq_nil_iff]
      intro e he
      simp [hnone e he]
    rw [hf]
    rfl

/-- C8 (witness): the unregistered value `Z` touches no edge of the
example graph and `neighbors Z` is empty there. -/
theorem neighbors_lists_every_touching_edge_witness :
    (∀ e ∈ exG.edges, touches vZ e = false) ∧ exG.neighbors vZ = [] :=
  ⟨by decide, (neighbors_lists_every_touching_edge exG vZ).2.2 (by decide)⟩

/-- C9: `value_between(v1, v2)` returns the value of the
earliest-inserted edge whose endpoint pair matches `{v1, v2}` in either
orientation (`List.find?` returns the first match in insertion order),
and returns `none` exactly when no stored edge matches. -/
theorem value_between_first_match (g : Graph V E) (v1 v2 : V) :
    g.value_between v1 v2 =
      Option.map Edge.value (g.edges.find? (fun e => decide (pair_matches v1 v2 e)))
    ∧ (g.value_between v1 v2 = none ↔ ∀ e ∈ g.edges, ¬ pair_matches v1 v2 e) :=
  ⟨findValue_eq_find? v1 v2 g.edges, findValue_eq_none_iff v1 v2 g.edges⟩

/-- C10: in every graph state reachable by a sequence of operations
from the empty graph, both endpoints of every stored edge are members
of the vertex set: `connect_vertices` appends an edge only after both
membership checks pass, `add_vertex` never removes a vertex (a
duplicate insertion is a no-op), and no operation removes anything. -/
theorem edge_endpoints_in_vertices (g : Graph V E) (h : Reachable g) :
    ∀ e ∈ g.edges, e.v1 ∈ g.vertices ∧ e.v2 ∈ g.vertices := by
  induction h with
  | empty =>
    intro e he
    simp [Graph.empty] at he
  | add_vertex g v _ ih =>
    intro e he
    by_cases hv : v ∈ g.vertices
    · rw [Graph.add_vertex, if_pos hv] at he ⊢
      exact ih e he
    · rw [Graph.add_vertex, if_neg hv] at he ⊢
      obtain ⟨ha, hbm⟩ := ih e he
      exact ⟨List.mem_append_left _ ha, List.mem_append_left _ hbm⟩
  | connect g v1 v2 w _ ih =>
    intro e he
    by_cases hb : (g.contains v1 && g.contains v2) = true
    · have hmem := (Bool.and_eq_true _ _).mp hb
      have h1 : v1 ∈ g.vertices := of_decide_eq_true hmem.1
      have h2 : v2 ∈ g.vertices := of_decide_eq_true hmem.2
      have hsnd : (g.connect_vertices v1 v2 w).snd
          = { g with edges := g.edges ++ [Edge.mk v1 v2 w] } := by
        simp [Graph.connect_vertices, hb]
      rw [hsnd] at he ⊢
      have he' : e ∈ g.edges ++ [Edge.mk v1 v2 w] := he
      rcases List.mem_append.mp he' with hold | hnew
      · exact ih e hold
      · have heq : e = Edge.mk v1 v2 w := by simpa using hnew
        subst heq
        exact ⟨h1, h2⟩
    · have hb' : (g.contains v1 && g.contains v2) = false := by
        revert hb
        cases (g.contains v1 && g.contains v2) <;> simp
      have hsnd : (g.connect_vertices v1 v2 w).snd = g := by
        simp [Graph.connect_vertices, hb']
      rw [hsnd] at he ⊢
      exact ih e he

/-- C10 (witness): the reachable state `g_first_edge` (add `A`, add
`B`, connect them with weight `1`) stores the edge `(A, B, 1)` and
both its endpoints are registered vertices. -/
theorem edge_endpoints_in_vertices_witness :
    Edge.mk vA vB 1 ∈ g_first_edge.edges ∧
    (vA ∈ g_first_edge.vertices ∧ vB ∈ g_first_edge.vertices) :=
  ⟨by decide,
   edge_endpoints_in_vertices g_first_edge
     (Reachable.connect gAB vA vB 1
       (Reachable.add_vertex (Graph.empty.add_vertex vA) vB
         (Reachable.add_vertex Graph.empty vA Reachable.empty)))
     (Edge.mk vA vB 1) (by decide)⟩

end DijkstraGraphs
